import Mathlib

/-
  Shallow embedding of the blip-machine program (src/main.rs).

  The program compiles a small assembly-like text into a list of
  instructions and interprets it, producing an 8-bit 8000 Hz PCM stream.

  Modelling choices:
  * Rust `f64` values that influence control flow (frequencies, durations,
    probabilities, random draws) are modelled as rationals `ℚ`; every f64
    value is a rational and all operations the program performs on them
    (comparison, multiplication by the sample rate) are exact.
  * The transcendental sample computation (`f64::sin`, pi) is modelled over
    the reals `ℝ` via `Real.sin`.
  * Rust's `str::split(" ")` is modelled by an explicit structural splitter
    `splitAux` with the same semantics (splitting at every single space
    character, keeping empty pieces).
  * `StdRng` is modelled as an abstract stream `u : ℕ → ℚ` of uniform draws
    together with a cursor `n : ℕ`; `Range::new(0,1).ind_sample(rng)` reads
    `u n` and advances the cursor.  `build_rand` seeds the generator once,
    which corresponds to starting every interpretation at cursor 0 with a
    fixed stream.
  * `f64::from_str` (`"…".parse()`) is modelled by an abstract parameter
    `pf : String → Option ℚ` (successful finite parses).
  * The interpreter's recursion and its driver loop need not terminate
    (e.g. `lbl a | pjump a 1`), so both take explicit fuel; running out of
    fuel is distinguished (`RunError.fuel`) from the two panic sites of the
    Rust code: slice indexing out of bounds (`RunError.oob`) and the
    explicit `panic!("interpret_sin precondition not met")`
    (`RunError.panicErr`).
  * `interpret_sin` pushes `sine_wave(freq, sin_progress)` into
    `current_samples`; the embedding records the argument pair
    `(freq, sin_progress)` and applies `sine_wave` at emission time
    (`emitByte`), which computes the same sample value.
  * For the emitted byte, `current_samples.iter().sum() / len` with `len = 0`
    is `0.0/0.0 = NaN` in f64 and `NaN as u8` is `0`, so the empty-sample
    case is mapped to the byte 0 directly; a non-empty mean lies in
    `[-1, 1]`, where `as u8` is truncation toward zero (`castU8`).
-/

/-! ## Data model -/

/-- Rust `enum Instruction`.  Field order follows the source:
`Sin(freq, dur)`, `PJump(prob, target)`, `PFork(prob, target)`. -/
inductive Instruction
  | Sin : ℚ → ℚ → Instruction
  | PJump : ℚ → ℕ → Instruction
  | PFork : ℚ → ℕ → Instruction
  | Terminate : Instruction
deriving DecidableEq

/-- Rust `struct ThreadState { sin_progress: i64, pc: usize }`. -/
structure ThreadState where
  sin_progress : ℤ
  pc : ℕ
deriving DecidableEq

/-- Rust `enum CompileError` (the `Syntax` variant is rendered
`SyntaxError` here); each variant carries the 0-based line number. -/
inductive CompileError
  | SyntaxError : ℕ → CompileError
  | Lbl : ℕ → CompileError
  | Prob : ℕ → CompileError
  | Num : ℕ → CompileError
deriving DecidableEq

/-- `static SAMPLE_RATE: f64 = 8000.0`. -/
def SAMPLE_RATE : ℚ := 8000

/-! ## Tokenization: Rust `line.split(" ").collect()` -/

/-- Split a character list at every single space character, keeping empty
pieces, accumulating the current (reversed) piece — the semantics of Rust
`str::split(" ")`. -/
def splitAux : List Char → List Char → List (List Char)
  | [], acc => [acc.reverse]
  | c :: cs, acc =>
    if c = ' ' then acc.reverse :: splitAux cs [] else splitAux cs (c :: acc)

/-- `let splt: Vec<&str> = line.split(" ").collect();` -/
def tokenize (line : String) : List String :=
  (splitAux line.toList []).map (fun cs => String.mk cs)

/-! ## Compiler pass 1: the label table

Rust builds a `HashMap` where a later `insert` for the same label wins;
the embedding prepends bindings and reads them with `List.lookup`, which
returns the most recently inserted binding. -/

/-- One pass-1 step per source line: a `lbl <ident>` line records
`ident ↦ ctr`; any other line with more than one token advances `ctr`. -/
def pass1Aux : List (String × ℕ) → ℕ → List String → List (String × ℕ)
  | m, _, [] => m
  | m, ctr, line :: rest =>
    match tokenize line with
    | ["lbl", ident] => pass1Aux ((ident, ctr) :: m) ctr rest
    | splt => if splt.length > 1 then pass1Aux m (ctr + 1) rest else pass1Aux m ctr rest

/-- The label table built by the first loop of `compile`. -/
def pass1 (lines : List String) : List (String × ℕ) :=
  pass1Aux [] 0 lines

/-- Whether a line advances the pass-1 instruction counter
(non-`lbl` line with more than one token). -/
def isSlot (line : String) : Bool :=
  match tokenize line with
  | ["lbl", _] => false
  | splt => splt.length > 1

/-! ## Compiler pass 2: emission -/

/-- Outcome of processing one source line in the second loop of `compile`:
push an instruction, push an error, or do nothing. -/
inductive LineResult
  | emit : Instruction → LineResult
  | err : CompileError → LineResult
  | skip : LineResult
deriving DecidableEq

/-- The match on `splt.as_ref()` in the second loop of `compile`, for the
line with 0-based number `i`.  `pf` models `str::parse::<f64>`. -/
def processLine (pf : String → Option ℚ) (lbls : List (String × ℕ))
    (i : ℕ) (line : String) : LineResult :=
  match tokenize line with
  | ["lbl", _] => .skip
  | ["sin", freq, dur] =>
    match pf freq with
    | none => .err (.Num i)
    | some freqf =>
      match pf dur with
      | none => .err (.Num i)
      | some durf => .emit (.Sin freqf durf)
  | ["pjump", lbl, prob] =>
    match List.lookup lbl lbls with
    | none => .err (.Lbl i)
    | some linenum =>
      match pf prob with
      | none => .err (.Num i)
      | some probf =>
        if 0 ≤ probf ∧ probf ≤ 1 then .emit (.PJump probf linenum)
        else .err (.Prob i)
  | ["pfork", lbl, prob] =>
    match List.lookup lbl lbls with
    | none => .err (.Lbl i)
    | some linenum =>
      match pf prob with
      | none => .err (.Num i)
      | some probf =>
        if 0 ≤ probf ∧ probf ≤ 1 then .emit (.PFork probf linenum)
        else .err (.Prob i)
  | splt => if splt = [""] then .skip else .err (.SyntaxError i)

/-- The second loop of `compile`: fold over the remaining lines starting at
line number `i`, collecting the pushed instructions and errors in order. -/
def pass2 (pf : String → Option ℚ) (lbls : List (String × ℕ)) :
    ℕ → List String → List Instruction × List CompileError
  | _, [] => ([], [])
  | i, line :: rest =>
    let tail := pass2 pf lbls (i + 1) rest
    match processLine pf lbls i line with
    | .emit ins => (ins :: tail.1, tail.2)
    | .err e => (tail.1, e :: tail.2)
    | .skip => tail

/-- Rust `fn compile`, over the list of source lines: build the label
table, process every line, append the implicit `Terminate`, and fail with
the collected errors whenever there is at least one. -/
def compile (pf : String → Option ℚ) (lines : List String) :
    Except (List CompileError) (List Instruction) :=
  let lbls := pass1 lines
  let res := pass2 pf lbls 0 lines
  if res.2 = [] then .ok (res.1 ++ [.Terminate]) else .error res.2

/-! ## Interpreter -/

/-- The three ways a run can fail to return a value: the two Rust panic
sites (out-of-bounds slice indexing; the explicit precondition `panic!` in
`interpret_sin`) and fuel exhaustion, which models non-termination. -/
inductive RunError
  | oob : RunError
  | panicErr : RunError
  | fuel : RunError
deriving DecidableEq

/-- `bernoulli_trial`: draw one uniform sample from `[0,1)` (read `u n`,
advance the cursor) and report whether `p > sample`. -/
def bernoulli_trial (p : ℚ) (u : ℕ → ℚ) (n : ℕ) : Bool × ℕ :=
  (decide (p > u n), n + 1)

/-- `recurse`: advance one thread until it parks at a `Sin` instruction
(returning it) or reaches `Terminate` (returning nothing), branching at
jumps and forks; at a taken fork the jump-target side is recursed first and
its threads are concatenated in front of the fall-through side, exactly as
`[recurse(target…), recurse(next…)].concat()`.  Fuel bounds the recursion
depth; `Sin`/`Terminate` consume none. -/
def recurse (instrs : List Instruction) (u : ℕ → ℚ) :
    ℕ → ThreadState → ℕ → Except RunError (List ThreadState × ℕ)
  | fuel, thread, n =>
    match instrs[thread.pc]? with
    | none => .error .oob
    | some (.Sin _ _) => .ok ([thread], n)
    | some (.PJump p target) =>
      match fuel with
      | 0 => .error .fuel
      | fuel' + 1 =>
        let t := bernoulli_trial p u n
        if t.1 then recurse instrs u fuel' ⟨0, target⟩ t.2
        else recurse instrs u fuel' ⟨0, thread.pc + 1⟩ t.2
    | some (.PFork p target) =>
      match fuel with
      | 0 => .error .fuel
      | fuel' + 1 =>
        let t := bernoulli_trial p u n
        if t.1 then
          match recurse instrs u fuel' ⟨0, target⟩ t.2 with
          | .error e => .error e
          | .ok a =>
            match recurse instrs u fuel' ⟨0, thread.pc + 1⟩ a.2 with
            | .error e => .error e
            | .ok b => .ok (a.1 ++ b.1, b.2)
        else recurse instrs u fuel' ⟨0, thread.pc + 1⟩ t.2
    | some .Terminate => .ok ([], n)

/-- `interpret_to_sin`: drain every thread of the population in order,
concatenating the surviving threads (`result.extend(recurse(…))`). -/
def interpret_to_sin (instrs : List Instruction) (u : ℕ → ℚ) (fuel : ℕ) :
    List ThreadState → ℕ → Except RunError (List ThreadState × ℕ)
  | [], n => .ok ([], n)
  | t :: ts, n =>
    match recurse instrs u fuel t n with
    | .error e => .error e
    | .ok a =>
      match interpret_to_sin instrs u fuel ts a.2 with
      | .error e => .error e
      | .ok b => .ok (a.1 ++ b.1, b.2)

/-- `interpret_sin`: advance every parked thread by one sample tick.  A
thread still inside its tone contributes the sample `sine_wave(freq,
sin_progress)` — recorded here as the argument pair `(freq, sin_progress)`
— and increments `sin_progress`; a thread whose tone is exhausted rolls
over to the next instruction contributing nothing.  A thread not parked at
a `Sin` hits the precondition `panic!`. -/
def interpret_sin (instrs : List Instruction) :
    List ThreadState → Except RunError (List ThreadState × List (ℚ × ℤ))
  | [] => .ok ([], [])
  | t :: ts =>
    match instrs[t.pc]? with
    | some (.Sin freq duration) =>
      match interpret_sin instrs ts with
      | .error e => .error e
      | .ok rest =>
        if (t.sin_progress : ℚ) < duration * SAMPLE_RATE then
          .ok (⟨t.sin_progress + 1, t.pc⟩ :: rest.1, (freq, t.sin_progress) :: rest.2)
        else
          .ok (⟨0, t.pc + 1⟩ :: rest.1, rest.2)
    | some _ => .error .panicErr
    | none => .error .oob

/-- The `while threads.len() != 0` loop of `interpret`: drain, tick, emit
one sample per iteration.  The samples of each tick are collected into a
list (one entry per loop iteration, in emission order). -/
def interpretLoop (instrs : List Instruction) (u : ℕ → ℚ) :
    ℕ → List ThreadState → ℕ → Except RunError (List (List (ℚ × ℤ)))
  | 0, _, _ => .error .fuel
  | fuel + 1, threads, n =>
    if threads = [] then .ok []
    else
      match interpret_to_sin instrs u (fuel + 1) threads n with
      | .error e => .error e
      | .ok a =>
        match interpret_sin instrs a.1 with
        | .error e => .error e
        | .ok b =>
          match interpretLoop instrs u fuel b.1 a.2 with
          | .error e => .error e
          | .ok rest => .ok (b.2 :: rest)

/-- Rust `fn interpret`, at the tick level: start a single thread at
`pc = 0` with the random cursor at its seeded start, and loop. -/
def interpretTicks (fuel : ℕ) (instrs : List Instruction) (u : ℕ → ℚ) :
    Except RunError (List (List (ℚ × ℤ))) :=
  interpretLoop instrs u fuel [⟨0, 0⟩] 0

/-! ## Sample emission -/

/-- `fn sine_wave`: `(2.0*PI*(step as f64)*freq/SAMPLE_RATE).sin()`. -/
noncomputable def sine_wave (freq : ℚ) (step : ℤ) : ℝ :=
  Real.sin (2 * Real.pi * (step : ℝ) * (freq : ℝ) / ((SAMPLE_RATE : ℚ) : ℝ))

/-- Rust `as u8` on a non-NaN f64: saturating truncation toward zero. -/
noncomputable def castU8 (x : ℝ) : ℕ :=
  if x ≤ 0 then 0 else if (255 : ℝ) ≤ x then 255 else (⌊x⌋).toNat

/-- `let avg = …sum / len; (127.5*(1 + avg)) as u8`: with no sounding
samples the f64 mean is `0.0/0.0 = NaN` and `NaN as u8` is `0`; otherwise
apply `sine_wave` to the recorded pairs, average, scale and cast. -/
noncomputable def emitByte (samples : List (ℚ × ℤ)) : ℕ :=
  match samples with
  | [] => 0
  | _ =>
    castU8 ((127.5 : ℝ) *
      (1 + (samples.map (fun s => sine_wave s.1 s.2)).sum / (samples.length : ℝ)))

/-- Rust `fn interpret` at the byte level: one emitted byte per tick. -/
noncomputable def interpret (fuel : ℕ) (instrs : List Instruction) (u : ℕ → ℚ) :
    Except RunError (List ℕ) :=
  (interpretTicks fuel instrs u).map (fun ticks => ticks.map emitByte)

/-! ## Derived notions used by the statements -/

/-- A thread parked at some `Sin` instruction. -/
def parkedAtSin (instrs : List Instruction) (t : ThreadState) : Prop :=
  ∃ f d, instrs[t.pc]? = some (Instruction.Sin f d)

/-- Jump/fork targets of one instruction are below `len`. -/
def targetOK (len : ℕ) : Instruction → Prop
  | .PJump _ t => t < len
  | .PFork _ t => t < len
  | _ => True

/-- The sample a thread contributes this tick, if any: the pair
`(freq, sin_progress)` when it is parked at a `Sin` whose duration is not
yet exhausted. -/
def sounding (instrs : List Instruction) (t : ThreadState) : Option (ℚ × ℤ) :=
  match instrs[t.pc]? with
  | some (.Sin freq duration) =>
    if (t.sin_progress : ℚ) < duration * SAMPLE_RATE then some (freq, t.sin_progress)
    else none
  | _ => none

/-- The line number carried by a compile error. -/
def errLine : CompileError → ℕ
  | .SyntaxError i => i
  | .Lbl i => i
  | .Prob i => i
  | .Num i => i

/-- The error produced by a line result, if any. -/
def errOf : LineResult → Option CompileError
  | .err e => some e
  | _ => none

/-- A concrete parse function used to instantiate theorems: integral
literals only. -/
def pfTest : String → Option ℚ := fun s =>
  if s = "0" then some 0
  else if s = "1" then some 1
  else if s = "2" then some 2
  else if s = "440" then some 440
  else none

/-- The number of lines that advance the pass-1 instruction counter. -/
def slots (lines : List String) : ℕ := List.countP (fun l => isSlot l) lines

/-! ## Step lemmas for the interpreter -/

theorem recurse_sin {instrs : List Instruction} {t : ThreadState} {f d : ℚ}
    (h : instrs[t.pc]? = some (Instruction.Sin f d)) (u : ℕ → ℚ) (fuel n : ℕ) :
    recurse instrs u fuel t n = .ok ([t], n) := by
  rw [recurse, h]

theorem recurse_terminate {instrs : List Instruction} {t : ThreadState}
    (h : instrs[t.pc]? = some Instruction.Terminate) (u : ℕ → ℚ) (fuel n : ℕ) :
    recurse instrs u fuel t n = .ok ([], n) := by
  rw [recurse, h]

theorem recurse_pjump {instrs : List Instruction} {t : ThreadState} {p : ℚ} {tgt : ℕ}
    (h : instrs[t.pc]? = some (Instruction.PJump p tgt)) (u : ℕ → ℚ) (fuel n : ℕ) :
    recurse instrs u (fuel + 1) t n =
      if u n < p then recurse instrs u fuel ⟨0, tgt⟩ (n + 1)
      else recurse instrs u fuel ⟨0, t.pc + 1⟩ (n + 1) := by
  rw [recurse, h]
  by_cases hp : u n < p <;> simp [bernoulli_trial, hp]

theorem recurse_pfork_taken {instrs : List Instruction} {t : ThreadState} {p : ℚ} {tgt : ℕ}
    (h : instrs[t.pc]? = some (Instruction.PFork p tgt)) (u : ℕ → ℚ) (fuel n : ℕ)
    (hp : u n < p) :
    recurse instrs u (fuel + 1) t n =
      match recurse instrs u fuel ⟨0, tgt⟩ (n + 1) with
      | .error e => .error e
      | .ok a =>
        match recurse instrs u fuel ⟨0, t.pc + 1⟩ a.2 with
        | .error e => .error e
        | .ok b => .ok (a.1 ++ b.1, b.2) := by
  rw [recurse, h]
  simp [bernoulli_trial, hp]

theorem recurse_pfork_skip {instrs : List Instruction} {t : ThreadState} {p : ℚ} {tgt : ℕ}
    (h : instrs[t.pc]? = some (Instruction.PFork p tgt)) (u : ℕ → ℚ) (fuel n : ℕ)
    (hp : ¬ u n < p) :
    recurse instrs u (fuel + 1) t n = recurse instrs u fuel ⟨0, t.pc + 1⟩ (n + 1) := by
  rw [recurse, h]
  simp [bernoulli_trial, hp]

theorem interpret_to_sin_nil (instrs : List Instruction) (u : ℕ → ℚ) (fuel n : ℕ) :
    interpret_to_sin instrs u fuel [] n = .ok ([], n) := rfl

theorem interpret_to_sin_cons (instrs : List Instruction) (u : ℕ → ℚ) (fuel n : ℕ)
    (t : ThreadState) (ts : List ThreadState) :
    interpret_to_sin instrs u fuel (t :: ts) n =
      match recurse instrs u fuel t n with
      | .error e => .error e
      | .ok a =>
        match interpret_to_sin instrs u fuel ts a.2 with
        | .error e => .error e
        | .ok b => .ok (a.1 ++ b.1, b.2) := by
  rw [interpret_to_sin]

theorem interpret_sin_play {instrs : List Instruction} {t : ThreadState} {f d : ℚ}
    (h : instrs[t.pc]? = some (Instruction.Sin f d))
    (hlt : (t.sin_progress : ℚ) < d * SAMPLE_RATE) (ts : List ThreadState) :
    interpret_sin instrs (t :: ts) =
      match interpret_sin instrs ts with
      | .error e => .error e
      | .ok rest =>
        .ok (⟨t.sin_progress + 1, t.pc⟩ :: rest.1, (f, t.sin_progress) :: rest.2) := by
  rw [interpret_sin, h]
  simp [hlt]

theorem interpret_sin_roll {instrs : List Instruction} {t : ThreadState} {f d : ℚ}
    (h : instrs[t.pc]? = some (Instruction.Sin f d))
    (hge : ¬ (t.sin_progress : ℚ) < d * SAMPLE_RATE) (ts : List ThreadState) :
    interpret_sin instrs (t :: ts) =
      match interpret_sin instrs ts with
      | .error e => .error e
      | .ok rest => .ok (⟨0, t.pc + 1⟩ :: rest.1, rest.2) := by
  rw [interpret_sin, h]
  simp [hge]

theorem interpretLoop_stop (instrs : List Instruction) (u : ℕ → ℚ) (fuel n : ℕ) :
    interpretLoop instrs u (fuel + 1) [] n = .ok [] := by
  rw [interpretLoop]
  simp

theorem interpretLoop_go {threads : List ThreadState} (hts : threads ≠ [])
    (instrs : List Instruction) (u : ℕ → ℚ) (fuel n : ℕ) :
    interpretLoop instrs u (fuel + 1) threads n =
      match interpret_to_sin instrs u (fuel + 1) threads n with
      | .error e => .error e
      | .ok a =>
        match interpret_sin instrs a.1 with
        | .error e => .error e
        | .ok b =>
          match interpretLoop instrs u fuel b.1 a.2 with
          | .error e => .error e
          | .ok rest => .ok (b.2 :: rest) := by
  rw [interpretLoop]
  simp [hts]

/-! ## Per-line facts about the compiler -/

theorem processLine_err_line (pf : String → Option ℚ) (lbls : List (String × ℕ))
    (i : ℕ) (line : String) (e : CompileError)
    (h : processLine pf lbls i line = .err e) : errLine e = i := by
  unfold processLine at h
  iterate 5 (all_goals try split at h)
  all_goals (cases h; try rfl)

theorem processLine_skip_not_slot (pf : String → Option ℚ) (lbls : List (String × ℕ))
    (i : ℕ) (line : String)
    (h : processLine pf lbls i line = .skip) : isSlot line = false := by
  unfold processLine at h
  iterate 5 (all_goals try split at h)
  all_goals simp_all [isSlot]

theorem processLine_emit_slot (pf : String → Option ℚ) (lbls : List (String × ℕ))
    (i : ℕ) (line : String) (ins : Instruction)
    (h : processLine pf lbls i line = .emit ins) : isSlot line = true := by
  unfold processLine at h
  iterate 5 (all_goals try split at h)
  all_goals simp_all [isSlot]

theorem processLine_emit_target (pf : String → Option ℚ) (lbls : List (String × ℕ))
    (i : ℕ) (line : String) (ins : Instruction) (L : ℕ)
    (h : processLine pf lbls i line = .emit ins)
    (hb : ∀ l v, List.lookup l lbls = some v → v < L) :
    targetOK L ins := by
  unfold processLine at h
  iterate 5 (all_goals try split at h)
  all_goals cases h
  all_goals simp only [targetOK]
  all_goals first | trivial | exact hb _ _ (by assumption)

theorem lookup_mem {α β : Type} [BEq α] [LawfulBEq α] {l : List (α × β)} {k : α} {v : β}
    (h : List.lookup k l = some v) : (k, v) ∈ l := by
  induction l with
  | nil => simp [List.lookup] at h
  | cons p rest ih =>
    rw [List.lookup] at h
    by_cases hk : k == p.1
    · simp [hk] at h
      have hkv : (k, v) = p := by
        cases p
        simp_all
      rw [hkv]
      exact List.mem_cons_self p rest
    · simp [hk] at h
      right
      exact ih h

/-! ## Structure of the two compiler passes -/

theorem slots_nil : slots [] = 0 := rfl

theorem slots_cons (line : String) (rest : List String) :
    slots (line :: rest) = slots rest + (if isSlot line then 1 else 0) := by
  simp [slots, List.countP_cons]

theorem isSlot_true_of (line : String)
    (hne : ∀ id, tokenize line = ["lbl", id] → False)
    (hlen : (tokenize line).length > 1) : isSlot line = true := by
  unfold isSlot
  split
  · exact absurd (by assumption) (fun hh => hne _ hh)
  · simpa using hlen

theorem isSlot_false_lbl {line : String} {id : String}
    (h : tokenize line = ["lbl", id]) : isSlot line = false := by
  simp [isSlot, h]

theorem isSlot_false_short {line : String}
    (hlen : ¬ (tokenize line).length > 1) : isSlot line = false := by
  unfold isSlot
  split
  · rfl
  · simpa using hlen

theorem pass1Aux_bound : ∀ (lines : List String) (m : List (String × ℕ)) (c : ℕ),
    ∀ p ∈ pass1Aux m c lines, p ∈ m ∨ p.2 ≤ c + slots lines := by
  intro lines
  induction lines with
  | nil => exact fun m c p hp => Or.inl hp
  | cons line rest ih =>
    intro m c p hp
    rw [pass1Aux] at hp
    split at hp
    · rename_i ident heq
      rcases ih _ _ p hp with hm | hb
      · rcases List.mem_cons.mp hm with hq | hq
        · right
          rw [hq]
          exact Nat.le_add_right c _
        · exact Or.inl hq
      · right
        rw [slots_cons, isSlot_false_lbl heq]
        omega
    · rename_i hne
      split at hp
      · rename_i hlen
        have hslot : isSlot line = true :=
          isSlot_true_of line (fun id hh => hne id hh) hlen
        rcases ih _ _ p hp with hm | hb
        · exact Or.inl hm
        · right
          rw [slots_cons, hslot]
          simp
          omega
      · rename_i hlen
        have hslot : isSlot line = false := isSlot_false_short hlen
        rcases ih _ _ p hp with hm | hb
        · exact Or.inl hm
        · right
          rw [slots_cons, hslot]
          simp
          omega

theorem pass2_errs_eq (pf : String → Option ℚ) (lbls : List (String × ℕ)) :
    ∀ (lines : List String) (i : ℕ),
    (pass2 pf lbls i lines).2 =
      ((List.enumFrom i lines).map (fun q => processLine pf lbls q.1 q.2)).filterMap errOf := by
  intro lines
  induction lines with
  | nil => intro i; rfl
  | cons line rest ih =>
    intro i
    rw [pass2]
    cases hr : processLine pf lbls i line <;>
      simp [hr, List.enumFrom_cons, errOf, ih (i + 1)]

theorem pass2_err_lb (pf : String → Option ℚ) (lbls : List (String × ℕ)) :
    ∀ (lines : List String) (i : ℕ) (e : CompileError),
    e ∈ (pass2 pf lbls i lines).2 → i ≤ errLine e := by
  intro lines
  induction lines with
  | nil => intro i e he; cases he
  | cons line rest ih =>
    intro i e he
    rw [pass2] at he
    cases hr : processLine pf lbls i line <;> rw [hr] at he
    · exact le_trans (Nat.le_succ i) (ih (i + 1) e he)
    · rcases List.mem_cons.mp he with hq | hq
      · rw [hq]
        rw [processLine_err_line pf lbls i line _ hr]
      · exact le_trans (Nat.le_succ i) (ih (i + 1) e hq)
    · exact le_trans (Nat.le_succ i) (ih (i + 1) e he)

theorem pass2_errs_sorted (pf : String → Option ℚ) (lbls : List (String × ℕ)) :
    ∀ (lines : List String) (i : ℕ),
    List.Sorted (· < ·) (((pass2 pf lbls i lines).2).map errLine) := by
  intro lines
  induction lines with
  | nil => intro i; simp [pass2]
  | cons line rest ih =>
    intro i
    rw [pass2]
    cases hr : processLine pf lbls i line <;> simp only
    · exact ih (i + 1)
    · rw [List.map_cons, List.sorted_cons]
      constructor
      · intro b hb
        rcases List.mem_map.mp hb with ⟨e, he, rfl⟩
        have h1 := pass2_err_lb pf lbls rest (i + 1) e he
        have h2 := processLine_err_line pf lbls i line _ hr
        rw [h2]
        omega
      · exact ih (i + 1)
    · exact ih (i + 1)

theorem pass2_no_err_length (pf : String → Option ℚ) (lbls : List (String × ℕ)) :
    ∀ (lines : List String) (i : ℕ), (pass2 pf lbls i lines).2 = [] →
    (pass2 pf lbls i lines).1.length = slots lines := by
  intro lines
  induction lines with
  | nil => intro i _; rfl
  | cons line rest ih =>
    intro i hno
    cases hr : processLine pf lbls i line
    · rename_i ins
      simp only [pass2, hr] at hno ⊢
      simp only [List.length_cons]
      rw [ih (i + 1) hno, slots_cons, processLine_emit_slot pf lbls i line ins hr]
      simp
    · rename_i e
      simp only [pass2, hr] at hno
      simp at hno
    · simp only [pass2, hr] at hno ⊢
      rw [ih (i + 1) hno, slots_cons, processLine_skip_not_slot pf lbls i line hr]
      simp

theorem pass2_mem_emit (pf : String → Option ℚ) (lbls : List (String × ℕ)) :
    ∀ (lines : List String) (i : ℕ) (ins : Instruction), ins ∈ (pass2 pf lbls i lines).1 →
    ∃ j line, processLine pf lbls j line = .emit ins := by
  intro lines
  induction lines with
  | nil => intro i ins h; cases h
  | cons line rest ih =>
    intro i ins h
    rw [pass2] at h
    cases hr : processLine pf lbls i line <;> rw [hr] at h
    · rcases List.mem_cons.mp h with hq | hq
      · exact ⟨i, line, by rw [hr, hq]⟩
      · exact ih (i + 1) ins hq
    · exact ih (i + 1) ins h
    · exact ih (i + 1) ins h

/-! ## Composition step lemmas and drain-phase safety -/

theorem recurse_pfork_ok {instrs : List Instruction} {t : ThreadState} {p : ℚ} {tgt : ℕ}
    {u : ℕ → ℚ} {fuel n : ℕ} {a b : List ThreadState × ℕ}
    (h : instrs[t.pc]? = some (Instruction.PFork p tgt)) (hp : u n < p)
    (ha : recurse instrs u fuel ⟨0, tgt⟩ (n + 1) = .ok a)
    (hb : recurse instrs u fuel ⟨0, t.pc + 1⟩ a.2 = .ok b) :
    recurse instrs u (fuel + 1) t n = .ok (a.1 ++ b.1, b.2) := by
  rw [recurse_pfork_taken h u fuel n hp]
  simp [ha, hb]

theorem recurse_pfork_err1 {instrs : List Instruction} {t : ThreadState} {p : ℚ} {tgt : ℕ}
    {u : ℕ → ℚ} {fuel n : ℕ} {e : RunError}
    (h : instrs[t.pc]? = some (Instruction.PFork p tgt)) (hp : u n < p)
    (ha : recurse instrs u fuel ⟨0, tgt⟩ (n + 1) = .error e) :
    recurse instrs u (fuel + 1) t n = .error e := by
  rw [recurse_pfork_taken h u fuel n hp]
  simp [ha]

theorem recurse_pfork_err2 {instrs : List Instruction} {t : ThreadState} {p : ℚ} {tgt : ℕ}
    {u : ℕ → ℚ} {fuel n : ℕ} {a : List ThreadState × ℕ} {e : RunError}
    (h : instrs[t.pc]? = some (Instruction.PFork p tgt)) (hp : u n < p)
    (ha : recurse instrs u fuel ⟨0, tgt⟩ (n + 1) = .ok a)
    (hb : recurse instrs u fuel ⟨0, t.pc + 1⟩ a.2 = .error e) :
    recurse instrs u (fuel + 1) t n = .error e := by
  rw [recurse_pfork_taken h u fuel n hp]
  simp [ha, hb]

theorem interpret_to_sin_ok {instrs : List Instruction} {u : ℕ → ℚ} {fuel n : ℕ}
    {t : ThreadState} {ts : List ThreadState} {a b : List ThreadState × ℕ}
    (ha : recurse instrs u fuel t n = .ok a)
    (hb : interpret_to_sin instrs u fuel ts a.2 = .ok b) :
    interpret_to_sin instrs u fuel (t :: ts) n = .ok (a.1 ++ b.1, b.2) := by
  rw [interpret_to_sin]
  simp [ha, hb]

theorem interpret_to_sin_err1 {instrs : List Instruction} {u : ℕ → ℚ} {fuel n : ℕ}
    {t : ThreadState} {ts : List ThreadState} {e : RunError}
    (ha : recurse instrs u fuel t n = .error e) :
    interpret_to_sin instrs u fuel (t :: ts) n = .error e := by
  rw [interpret_to_sin]
  simp [ha]

theorem interpret_to_sin_err2 {instrs : List Instruction} {u : ℕ → ℚ} {fuel n : ℕ}
    {t : ThreadState} {ts : List ThreadState} {a : List ThreadState × ℕ} {e : RunError}
    (ha : recurse instrs u fuel t n = .ok a)
    (hb : interpret_to_sin instrs u fuel ts a.2 = .error e) :
    interpret_to_sin instrs u fuel (t :: ts) n = .error e := by
  rw [interpret_to_sin]
  simp [ha, hb]

theorem interpret_sin_play_ok {instrs : List Instruction} {t : ThreadState} {f d : ℚ}
    {ts : List ThreadState} {r : List ThreadState × List (ℚ × ℤ)}
    (h : instrs[t.pc]? = some (Instruction.Sin f d))
    (hlt : (t.sin_progress : ℚ) < d * SAMPLE_RATE)
    (hrest : interpret_sin instrs ts = .ok r) :
    interpret_sin instrs (t :: ts) =
      .ok (⟨t.sin_progress + 1, t.pc⟩ :: r.1, (f, t.sin_progress) :: r.2) := by
  rw [interpret_sin_play h hlt]
  simp [hrest]

theorem interpret_sin_roll_ok {instrs : List Instruction} {t : ThreadState} {f d : ℚ}
    {ts : List ThreadState} {r : List ThreadState × List (ℚ × ℤ)}
    (h : instrs[t.pc]? = some (Instruction.Sin f d))
    (hge : ¬ (t.sin_progress : ℚ) < d * SAMPLE_RATE)
    (hrest : interpret_sin instrs ts = .ok r) :
    interpret_sin instrs (t :: ts) = .ok (⟨0, t.pc + 1⟩ :: r.1, r.2) := by
  rw [interpret_sin_roll h hge]
  simp [hrest]

theorem interpretLoop_go_ok {instrs : List Instruction} {u : ℕ → ℚ} {fuel n : ℕ}
    {threads : List ThreadState} {a : List ThreadState × ℕ}
    {b : List ThreadState × List (ℚ × ℤ)} {rest : List (List (ℚ × ℤ))}
    (hts : threads ≠ [])
    (ha : interpret_to_sin instrs u (fuel + 1) threads n = .ok a)
    (hb : interpret_sin instrs a.1 = .ok b)
    (hr : interpretLoop instrs u fuel b.1 a.2 = .ok rest) :
    interpretLoop instrs u (fuel + 1) threads n = .ok (b.2 :: rest) := by
  rw [interpretLoop_go hts]
  simp [ha, hb, hr]

theorem parked_lt {instrs : List Instruction} {t : ThreadState}
    (h : parkedAtSin instrs t) : t.pc < instrs.length := by
  obtain ⟨f, d, hf⟩ := h
  exact (List.getElem?_eq_some.mp hf).1

theorem next_pc_lt {instrs : List Instruction} {pc : ℕ} {ins : Instruction}
    (hlast : instrs.getLast? = some Instruction.Terminate)
    (h : instrs[pc]? = some ins) (hne : ins ≠ Instruction.Terminate) :
    pc + 1 < instrs.length := by
  have hlt : pc < instrs.length := (List.getElem?_eq_some.mp h).1
  by_contra hge
  have hpc : pc = instrs.length - 1 := by omega
  rw [List.getLast?_eq_getElem?, ← hpc, h] at hlast
  exact hne (by injection hlast)

theorem recurse_parks {instrs : List Instruction}
    (hlast : instrs.getLast? = some Instruction.Terminate)
    (htg : ∀ ins ∈ instrs, targetOK instrs.length ins) (u : ℕ → ℚ) :
    ∀ (fuel : ℕ) (t : ThreadState) (n : ℕ), t.pc < instrs.length →
      recurse instrs u fuel t n = .error .fuel ∨
      ∃ ts n2, recurse instrs u fuel t n = .ok (ts, n2) ∧
        ∀ t2 ∈ ts, parkedAtSin instrs t2 := by
  intro fuel
  induction fuel with
  | zero =>
    intro t n hlt
    obtain ⟨ins, hins⟩ : ∃ ins, instrs[t.pc]? = some ins :=
      ⟨instrs[t.pc], List.getElem?_eq_getElem hlt⟩
    cases ins with
    | Sin f d =>
      right
      exact ⟨[t], n, recurse_sin hins u 0 n, by
        intro t2 ht2
        rw [List.mem_singleton] at ht2
        rw [ht2]
        exact ⟨f, d, hins⟩⟩
    | Terminate =>
      right
      exact ⟨[], n, recurse_terminate hins u 0 n, by intro t2 ht2; cases ht2⟩
    | PJump p tgt =>
      left
      rw [recurse, hins]
    | PFork p tgt =>
      left
      rw [recurse, hins]
  | succ fuel ih =>
    intro t n hlt
    obtain ⟨ins, hins⟩ : ∃ ins, instrs[t.pc]? = some ins :=
      ⟨instrs[t.pc], List.getElem?_eq_getElem hlt⟩
    have hmem : ins ∈ instrs := List.getElem?_mem hins
    cases ins with
    | Sin f d =>
      right
      exact ⟨[t], n, recurse_sin hins u (fuel + 1) n, by
        intro t2 ht2
        rw [List.mem_singleton] at ht2
        rw [ht2]
        exact ⟨f, d, hins⟩⟩
    | Terminate =>
      right
      exact ⟨[], n, recurse_terminate hins u (fuel + 1) n, by intro t2 ht2; cases ht2⟩
    | PJump p tgt =>
      have htgt : tgt < instrs.length := by simpa [targetOK] using htg _ hmem
      have hnext : t.pc + 1 < instrs.length :=
        next_pc_lt hlast hins (by simp)
      rw [recurse_pjump hins u fuel n]
      by_cases hc : u n < p
      · rw [if_pos hc]
        exact ih ⟨0, tgt⟩ (n + 1) htgt
      · rw [if_neg hc]
        exact ih ⟨0, t.pc + 1⟩ (n + 1) hnext
    | PFork p tgt =>
      have htgt : tgt < instrs.length := by simpa [targetOK] using htg _ hmem
      have hnext : t.pc + 1 < instrs.length :=
        next_pc_lt hlast hins (by simp)
      by_cases hc : u n < p
      · rcases ih ⟨0, tgt⟩ (n + 1) htgt with he1 | ⟨ts1, n1, hok1, hp1⟩
        · left
          exact recurse_pfork_err1 hins hc he1
        · rcases ih ⟨0, t.pc + 1⟩ n1 hnext with he2 | ⟨ts2, n2, hok2, hp2⟩
          · left
            exact recurse_pfork_err2 hins hc hok1 (by simpa using he2)
          · right
            refine ⟨ts1 ++ ts2, n2, recurse_pfork_ok hins hc hok1 (by simpa using hok2), ?_⟩
            intro t2 ht2
            rcases List.mem_append.mp ht2 with hq | hq
            · exact hp1 t2 hq
            · exact hp2 t2 hq
      · rcases ih ⟨0, t.pc + 1⟩ (n + 1) hnext with he | ⟨ts1, n1, hok, hp1⟩
        · left
          rw [recurse_pfork_skip hins u fuel n hc]
          exact he
        · right
          refine ⟨ts1, n1, ?_, hp1⟩
          rw [recurse_pfork_skip hins u fuel n hc]
          exact hok

/-! ## Tick-phase and loop safety -/

theorem interpret_to_sin_parks {instrs : List Instruction}
    (hlast : instrs.getLast? = some Instruction.Terminate)
    (htg : ∀ ins ∈ instrs, targetOK instrs.length ins) (u : ℕ → ℚ) (fuel : ℕ) :
    ∀ (ts : List ThreadState) (n : ℕ), (∀ t ∈ ts, t.pc < instrs.length) →
      interpret_to_sin instrs u fuel ts n = .error .fuel ∨
      ∃ r, interpret_to_sin instrs u fuel ts n = .ok r ∧
        ∀ t2 ∈ r.1, parkedAtSin instrs t2 := by
  intro ts
  induction ts with
  | nil =>
    intro n _
    right
    exact ⟨([], n), rfl, by intro t2 ht2; cases ht2⟩
  | cons t ts ih =>
    intro n hall
    rcases recurse_parks hlast htg u fuel t n (hall t (List.mem_cons_self t ts))
      with he | ⟨ts1, n1, hok, hp1⟩
    · left
      exact interpret_to_sin_err1 he
    · rcases ih n1 (fun t2 ht2 => hall t2 (List.mem_cons_of_mem t ht2))
        with he2 | ⟨r, hok2, hp2⟩
      · left
        exact interpret_to_sin_err2 hok (by simpa using he2)
      · right
        refine ⟨(ts1 ++ r.1, r.2), interpret_to_sin_ok hok (by simpa using hok2), ?_⟩
        intro t2 ht2
        rcases List.mem_append.mp ht2 with hq | hq
        · exact hp1 t2 hq
        · exact hp2 t2 hq

theorem interpret_sin_total {instrs : List Instruction} :
    ∀ (ts : List ThreadState), (∀ t ∈ ts, parkedAtSin instrs t) →
      ∃ r, interpret_sin instrs ts = .ok r ∧
        (instrs.getLast? = some Instruction.Terminate →
          ∀ t2 ∈ r.1, t2.pc < instrs.length) ∧
        r.1.length = ts.length := by
  intro ts
  induction ts with
  | nil =>
    intro _
    exact ⟨([], []), rfl, fun _ t2 ht2 => absurd ht2 (List.not_mem_nil t2), rfl⟩
  | cons t ts ih =>
    intro hall
    obtain ⟨f, d, hf⟩ := hall t (List.mem_cons_self t ts)
    obtain ⟨r, hok, hbound, hlen⟩ := ih (fun t2 ht2 => hall t2 (List.mem_cons_of_mem t ht2))
    by_cases hlt : (t.sin_progress : ℚ) < d * SAMPLE_RATE
    · refine ⟨(⟨t.sin_progress + 1, t.pc⟩ :: r.1, (f, t.sin_progress) :: r.2),
        interpret_sin_play_ok hf hlt hok, ?_, by simp [hlen]⟩
      intro hlast t2 ht2
      rcases List.mem_cons.mp ht2 with hq | hq
      · rw [hq]
        exact (List.getElem?_eq_some.mp hf).1
      · exact hbound hlast t2 hq
    · refine ⟨(⟨0, t.pc + 1⟩ :: r.1, r.2),
        interpret_sin_roll_ok hf hlt hok, ?_, by simp [hlen]⟩
      intro hlast t2 ht2
      rcases List.mem_cons.mp ht2 with hq | hq
      · rw [hq]
        exact next_pc_lt hlast hf (by simp)
      · exact hbound hlast t2 hq

theorem interpretLoop_safe {instrs : List Instruction}
    (hlast : instrs.getLast? = some Instruction.Terminate)
    (htg : ∀ ins ∈ instrs, targetOK instrs.length ins) (u : ℕ → ℚ) :
    ∀ (fuel : ℕ) (ts : List ThreadState) (n : ℕ), (∀ t ∈ ts, t.pc < instrs.length) →
      interpretLoop instrs u fuel ts n = .error .fuel ∨
      ∃ ticks, interpretLoop instrs u fuel ts n = .ok ticks := by
  intro fuel
  induction fuel with
  | zero => intro ts n _; left; rfl
  | succ fuel ih =>
    intro ts n hall
    by_cases hts : ts = []
    · right
      exact ⟨[], by rw [hts]; exact interpretLoop_stop instrs u fuel n⟩
    · rcases interpret_to_sin_parks hlast htg u (fuel + 1) ts n hall
        with he | ⟨a, hok, hp⟩
      · left
        rw [interpretLoop_go hts]
        simp [he]
      · obtain ⟨b, hok2, hbound, _⟩ := interpret_sin_total a.1 hp
        rcases ih b.1 a.2 (hbound hlast) with he3 | ⟨ticks, hok3⟩
        · left
          rw [interpretLoop_go hts]
          simp [hok, hok2, he3]
        · right
          exact ⟨b.2 :: ticks, interpretLoop_go_ok hts hok hok2 hok3⟩

/-! ## Safety of compiled programs (C3) -/

theorem compile_ok_parts {pf : String → Option ℚ} {lines : List String}
    {instrs : List Instruction} (h : compile pf lines = .ok instrs) :
    (pass2 pf (pass1 lines) 0 lines).2 = [] ∧
    instrs = (pass2 pf (pass1 lines) 0 lines).1 ++ [.Terminate] := by
  by_cases he : (pass2 pf (pass1 lines) 0 lines).2 = []
  · refine ⟨he, ?_⟩
    rw [compile] at h
    simp only [he, if_pos rfl] at h
    injection h with h
    rw [h]
  · rw [compile] at h
    simp only [if_neg he] at h
    cases h

theorem compile_wf {pf : String → Option ℚ} {lines : List String}
    {instrs : List Instruction} (h : compile pf lines = .ok instrs) :
    instrs.getLast? = some Instruction.Terminate ∧
    (∀ ins ∈ instrs, targetOK instrs.length ins) := by
  obtain ⟨hno, hin⟩ := compile_ok_parts h
  have hlen : instrs.length = slots lines + 1 := by
    rw [hin, List.length_append, pass2_no_err_length pf (pass1 lines) lines 0 hno]
    rfl
  constructor
  · rw [hin]
    exact List.getLast?_concat _
  · intro ins hins
    rw [hin] at hins
    rcases List.mem_append.mp hins with hq | hq
    · obtain ⟨j, line, hemit⟩ := pass2_mem_emit pf (pass1 lines) lines 0 ins hq
      refine processLine_emit_target pf (pass1 lines) j line ins instrs.length hemit ?_
      intro l v hl
      have hmem := lookup_mem hl
      rcases pass1Aux_bound lines [] 0 (l, v) hmem with hm | hb
      · cases hm
      · simp only at hb
        omega
    · rw [List.mem_singleton] at hq
      rw [hq]
      trivial

/-- Claim C3: for every instruction sequence returned by a successful
`compile`, the last instruction is `Terminate` and every `PJump`/`PFork`
target is a valid index; consequently interpretation never hits either
panic site — it never fails with an out-of-bounds index and the
`interpret_sin` precondition panic is unreachable, every run either
producing output or merely running out of fuel. -/
theorem compile_ok_interpret_safe (pf : String → Option ℚ) (lines : List String)
    (instrs : List Instruction) (h : compile pf lines = .ok instrs) :
    instrs.getLast? = some Instruction.Terminate ∧
    (∀ ins ∈ instrs, targetOK instrs.length ins) ∧
    ∀ (fuel : ℕ) (u : ℕ → ℚ),
      interpretTicks fuel instrs u ≠ .error .oob ∧
      interpretTicks fuel instrs u ≠ .error .panicErr := by
  obtain ⟨hlast, htg⟩ := compile_wf h
  refine ⟨hlast, htg, ?_⟩
  intro fuel u
  have hpos : 0 < instrs.length := by
    rcases (compile_ok_parts h).2 with hin
    rw [hin, List.length_append]
    simp
  have hsafe := interpretLoop_safe hlast htg u fuel [⟨0, 0⟩] 0 (by
    intro t ht
    rw [List.mem_singleton] at ht
    rw [ht]
    exact hpos)
  rcases hsafe with he | ⟨ticks, hok⟩
  · rw [interpretTicks, he]
    constructor <;> intro hx <;> injection hx with hx <;> cases hx
  · rw [interpretTicks, hok]
    constructor <;> intro hx <;> cases hx

theorem compile_ok_interpret_safe_witness :
    [Instruction.Sin 440 1, Instruction.Terminate].getLast? = some Instruction.Terminate ∧
    (∀ ins ∈ [Instruction.Sin 440 1, Instruction.Terminate],
      targetOK [Instruction.Sin 440 1, Instruction.Terminate].length ins) ∧
    ∀ (fuel : ℕ) (u : ℕ → ℚ),
      interpretTicks fuel [Instruction.Sin 440 1, Instruction.Terminate] u ≠ .error .oob ∧
      interpretTicks fuel [Instruction.Sin 440 1, Instruction.Terminate] u ≠ .error .panicErr :=
  compile_ok_interpret_safe pfTest ["sin 440 1"] _ rfl

/-! ## The single-tone run (C1) -/

theorem single_sin_loop (f d : ℚ) (m : ℕ) (hd : d * SAMPLE_RATE = (m : ℚ)) (u : ℕ → ℚ) :
    ∀ (k j fuel n : ℕ), j + k = m → k + 3 ≤ fuel →
      interpretLoop [.Sin f d, .Terminate] u fuel [⟨(j : ℤ), 0⟩] n =
        .ok ((List.range' j k).map (fun (s : ℕ) => [(f, (s : ℤ))]) ++ [[], []]) := by
  intro k
  induction k with
  | zero =>
    intro j fuel n hj hfuel
    obtain ⟨w, rfl⟩ : ∃ w, fuel = w + 3 := ⟨fuel - 3, by omega⟩
    have hj' : j = m := by omega
    have hi0 : [Instruction.Sin f d, Instruction.Terminate][(⟨(j : ℤ), 0⟩ : ThreadState).pc]? =
        some (Instruction.Sin f d) := rfl
    have hi1 : [Instruction.Sin f d, Instruction.Terminate][(⟨(0 : ℤ), 1⟩ : ThreadState).pc]? =
        some Instruction.Terminate := rfl
    have hnlt : ¬ (((⟨(j : ℤ), 0⟩ : ThreadState).sin_progress : ℚ) < d * SAMPLE_RATE) := by
      rw [hd, hj']
      push_cast
      exact lt_irrefl _
    have hdrain : interpret_to_sin [Instruction.Sin f d, Instruction.Terminate] u (w + 3)
        [⟨(j : ℤ), 0⟩] n = .ok ([⟨(j : ℤ), 0⟩], n) := by
      have := interpret_to_sin_ok (recurse_sin hi0 u (w + 3) n)
        (interpret_to_sin_nil [Instruction.Sin f d, Instruction.Terminate] u (w + 3) n)
      simpa using this
    have htick : interpret_sin [Instruction.Sin f d, Instruction.Terminate] [⟨(j : ℤ), 0⟩] =
        .ok ([⟨0, 1⟩], []) := by
      have := interpret_sin_roll_ok hi0 hnlt (rfl :
        interpret_sin [Instruction.Sin f d, Instruction.Terminate] [] = .ok ([], []))
      simpa using this
    have hdrain2 : interpret_to_sin [Instruction.Sin f d, Instruction.Terminate] u (w + 2)
        [⟨(0 : ℤ), 1⟩] n = .ok ([], n) := by
      have := interpret_to_sin_ok (recurse_terminate hi1 u (w + 2) n)
        (interpret_to_sin_nil [Instruction.Sin f d, Instruction.Terminate] u (w + 2) n)
      simpa using this
    have hinner : interpretLoop [Instruction.Sin f d, Instruction.Terminate] u (w + 2)
        [⟨(0 : ℤ), 1⟩] n = .ok [[]] := by
      have := interpretLoop_go_ok (List.cons_ne_nil _ _) hdrain2
        (rfl : interpret_sin [Instruction.Sin f d, Instruction.Terminate] [] = .ok ([], []))
        (interpretLoop_stop [Instruction.Sin f d, Instruction.Terminate] u w n)
      simpa using this
    have := interpretLoop_go_ok (List.cons_ne_nil _ _) hdrain htick hinner
    simpa using this
  | succ k ih =>
    intro j fuel n hj hfuel
    obtain ⟨w, rfl⟩ : ∃ w, fuel = w + 1 := ⟨fuel - 1, by omega⟩
    have hi0 : [Instruction.Sin f d, Instruction.Terminate][(⟨(j : ℤ), 0⟩ : ThreadState).pc]? =
        some (Instruction.Sin f d) := rfl
    have hlt : (((⟨(j : ℤ), 0⟩ : ThreadState).sin_progress : ℚ) < d * SAMPLE_RATE) := by
      rw [hd]
      push_cast
      exact_mod_cast Nat.lt_of_lt_of_le (Nat.lt_succ_self j) (by omega)
    have hdrain : interpret_to_sin [Instruction.Sin f d, Instruction.Terminate] u (w + 1)
        [⟨(j : ℤ), 0⟩] n = .ok ([⟨(j : ℤ), 0⟩], n) := by
      have := interpret_to_sin_ok (recurse_sin hi0 u (w + 1) n)
        (interpret_to_sin_nil [Instruction.Sin f d, Instruction.Terminate] u (w + 1) n)
      simpa using this
    have htick : interpret_sin [Instruction.Sin f d, Instruction.Terminate] [⟨(j : ℤ), 0⟩] =
        .ok ([⟨(j : ℤ) + 1, 0⟩], [(f, (j : ℤ))]) := by
      have := interpret_sin_play_ok hi0 hlt (rfl :
        interpret_sin [Instruction.Sin f d, Instruction.Terminate] [] = .ok ([], []))
      simpa using this
    have hrest : interpretLoop [Instruction.Sin f d, Instruction.Terminate] u w
        [⟨(j : ℤ) + 1, 0⟩] n =
        .ok ((List.range' (j + 1) k).map (fun (s : ℕ) => [(f, (s : ℤ))]) ++ [[], []]) := by
      have hc : ((j : ℤ) + 1) = ((j + 1 : ℕ) : ℤ) := by push_cast; ring
      rw [hc]
      exact ih (j + 1) w n (by omega) (by omega)
    have := interpretLoop_go_ok (List.cons_ne_nil _ _) hdrain htick hrest
    rw [this, List.range'_succ]
    simp

/-- Claim C1 (amended): a program consisting of a single `sin f d`
instruction plus the implicit `Terminate`, with `d × 8000 = m` an integer,
emits `m` tone sample ticks `(f, 0) … (f, m-1)` followed by two further
sample-less ticks — one for the tick at which the tone rolls over, and one
emitted by the `interpret_sin` call that the loop still performs after the
drain phase has left the population empty; at the byte level the output is
the `m` tone bytes followed by two bytes of value `0`, and only then does
the run stop. -/
theorem single_sin_output (f d : ℚ) (m fuel : ℕ) (u : ℕ → ℚ)
    (hd : d * SAMPLE_RATE = (m : ℚ)) (hfuel : m + 3 ≤ fuel) :
    interpretTicks fuel [.Sin f d, .Terminate] u =
      .ok ((List.range m).map (fun (s : ℕ) => [(f, (s : ℤ))]) ++ [[], []]) ∧
    interpret fuel [.Sin f d, .Terminate] u =
      .ok ((List.range m).map (fun (s : ℕ) => emitByte [(f, (s : ℤ))]) ++ [0, 0]) ∧
    ((List.range m).map (fun (s : ℕ) => [(f, (s : ℤ))]) ++ [[], []]).length = m + 2 := by
  have hticks : interpretTicks fuel [.Sin f d, .Terminate] u =
      .ok ((List.range m).map (fun (s : ℕ) => [(f, (s : ℤ))]) ++ [[], []]) := by
    rw [interpretTicks]
    have h0 : ((⟨(0 : ℤ), 0⟩ : ThreadState)) = (⟨((0 : ℕ) : ℤ), 0⟩ : ThreadState) := by
      norm_num
    rw [List.range_eq_range']
    rw [h0]
    exact single_sin_loop f d m hd u m 0 fuel 0 (by omega) hfuel
  refine ⟨hticks, ?_, ?_⟩
  · rw [interpret, hticks]
    simp only [Except.map, List.map_append, List.map_map]
    rfl
  · rw [List.length_append, List.length_map, List.length_range]
    rfl

set_option maxRecDepth 2000 in
theorem single_sin_output_witness :
    interpretTicks 8003 [.Sin 440 1, .Terminate] (fun _ => 0) =
      .ok ((List.range 8000).map (fun (s : ℕ) => [((440 : ℚ), (s : ℤ))]) ++ [[], []]) ∧
    interpret 8003 [.Sin 440 1, .Terminate] (fun _ => 0) =
      .ok ((List.range 8000).map (fun (s : ℕ) => emitByte [((440 : ℚ), (s : ℤ))]) ++ [0, 0]) ∧
    ((List.range 8000).map (fun (s : ℕ) => [(((440 : ℚ)), (s : ℤ))]) ++ [[], []]).length = 8000 + 2 :=
  single_sin_output 440 1 8000 8003 (fun _ => 0) ((one_mul SAMPLE_RATE).trans rfl)
    (by decide)

/-- Claim C1, counterexample to the claim as stated: for `sin 440 (1/8000)`
the claim predicts `round((1/8000) × 8000) = 1` emitted sample byte and no
byte after the drain phase empties the population, but the interpreter
produces three ticks (hence three bytes): the tone sample, a sample-less
roll-over tick, and a final sample-less tick emitted on the empty
population. -/
theorem single_sin_claim_counterexample :
    interpretTicks 10 [.Sin 440 (1/8000), .Terminate] (fun _ => 0) =
      .ok [[(440, 0)], [], []] ∧
    interpret 10 [.Sin 440 (1/8000), .Terminate] (fun _ => 0) =
      .ok [emitByte [((440 : ℚ), (0 : ℤ))], 0, 0] ∧
    ([[((440 : ℚ), (0 : ℤ))], [], []] : List (List (ℚ × ℤ))).length = 3 ∧
    round ((1/8000 : ℚ) * SAMPLE_RATE) = (1 : ℤ) ∧ (3 : ℕ) ≠ 1 := by
  have hd : (1/8000 : ℚ) * SAMPLE_RATE = ((1 : ℕ) : ℚ) := by
    norm_num [SAMPLE_RATE]
  have hticks : interpretTicks 10 [.Sin 440 (1/8000), .Terminate] (fun _ => 0) =
      .ok [[(440, 0)], [], []] := by
    rw [interpretTicks]
    have h0 : ((⟨(0 : ℤ), 0⟩ : ThreadState)) = (⟨((0 : ℕ) : ℤ), 0⟩ : ThreadState) := by
      norm_num
    rw [h0]
    have := single_sin_loop 440 (1/8000) 1 hd (fun _ => 0) 1 0 10 0 (by omega) (by omega)
    rw [this]
    simp [List.range']
  refine ⟨hticks, ?_, rfl, by norm_num [SAMPLE_RATE, round_eq], by omega⟩
  rw [interpret, hticks]
  simp only [Except.map, List.map]
  rfl

/-! ## The final tick of a terminating run (C10) -/

theorem interpret_sin_ok_length {instrs : List Instruction} :
    ∀ (ts : List ThreadState) (r : List ThreadState × List (ℚ × ℤ)),
      interpret_sin instrs ts = .ok r → r.1.length = ts.length := by
  intro ts
  induction ts with
  | nil =>
    intro r h
    rw [interpret_sin] at h
    injection h with h
    rw [← h]
  | cons t ts ih =>
    intro r h
    rw [interpret_sin] at h
    iterate 3 (all_goals try split at h)
    all_goals cases h
    all_goals (have hlen := ih _ (by assumption); simp [List.length_cons, hlen])

theorem getLast?_map {α β : Type} (g : α → β) :
    ∀ (l : List α) (x : α), l.getLast? = some x → (l.map g).getLast? = some (g x) := by
  intro l
  induction l with
  | nil => intro x h; cases h
  | cons a l ih =>
    intro x h
    cases l with
    | nil =>
      simp at h
      rw [h]
      rfl
    | cons b l2 =>
      rw [List.getLast?_cons_cons] at h
      have := ih x h
      simp only [List.map_cons] at *
      rw [List.getLast?_cons_cons]
      exact this

theorem interpretLoop_last_nil {instrs : List Instruction} {u : ℕ → ℚ} :
    ∀ (fuel : ℕ) (ts : List ThreadState) (n : ℕ) (ticks : List (List (ℚ × ℤ))),
      ts ≠ [] → interpretLoop instrs u fuel ts n = .ok ticks →
      ticks ≠ [] ∧ ticks.getLast? = some [] := by
  intro fuel
  induction fuel with
  | zero =>
    intro ts n ticks _ h
    rw [interpretLoop] at h
    cases h
  | succ fuel ih =>
    intro ts n ticks hts h
    rw [interpretLoop_go hts] at h
    cases ha : interpret_to_sin instrs u (fuel + 1) ts n with
    | error e => simp [ha] at h
    | ok a =>
      cases hb : interpret_sin instrs a.1 with
      | error e => simp [ha, hb] at h
      | ok b =>
        cases hr : interpretLoop instrs u fuel b.1 a.2 with
        | error e => simp [ha, hb, hr] at h
        | ok rest =>
          simp only [ha, hb, hr] at h
          injection h with h
          by_cases hnil : a.1 = []
          · have hb2 : b = ([], []) := by
              rw [hnil] at hb
              rw [show interpret_sin instrs [] = .ok ([], []) from rfl] at hb
              injection hb with hb
              rw [hb]
            cases fuel with
            | zero =>
              rw [hb2, interpretLoop] at hr
              cases hr
            | succ w =>
              rw [hb2, interpretLoop_stop] at hr
              injection hr with hr
              rw [← h, ← hr, hb2]
              exact ⟨List.cons_ne_nil _ _, rfl⟩
          · have hbnil : b.1 ≠ [] := by
              intro hx
              apply hnil
              have := interpret_sin_ok_length a.1 b hb
              rw [hx] at this
              exact List.eq_nil_of_length_eq_zero this.symm
            obtain ⟨hne, hlast⟩ := ih b.1 a.2 rest hbnil hr
            rw [← h]
            refine ⟨List.cons_ne_nil _ _, ?_⟩
            cases rest with
            | nil => exact absurd rfl hne
            | cons r0 rest2 =>
              rw [List.getLast?_cons_cons]
              exact hlast

theorem terminate_run (fuel : ℕ) (v : ℕ → ℚ) (hfuel : 2 ≤ fuel) :
    interpretTicks fuel [Instruction.Terminate] v = .ok [[]] := by
  obtain ⟨w, rfl⟩ : ∃ w, fuel = w + 2 := ⟨fuel - 2, by omega⟩
  rw [interpretTicks]
  have hi : [Instruction.Terminate][(⟨(0 : ℤ), 0⟩ : ThreadState).pc]? =
      some Instruction.Terminate := rfl
  have hdrain : interpret_to_sin [Instruction.Terminate] v (w + 2) [⟨(0 : ℤ), 0⟩] 0 =
      .ok ([], 0) := by
    have := interpret_to_sin_ok (recurse_terminate hi v (w + 2) 0)
      (interpret_to_sin_nil [Instruction.Terminate] v (w + 2) 0)
    simpa using this
  have := interpretLoop_go_ok (List.cons_ne_nil _ _) hdrain
    (rfl : interpret_sin [Instruction.Terminate] [] = .ok ([], []))
    (interpretLoop_stop [Instruction.Terminate] v w 0)
  simpa using this

/-- Claim C10: in every terminating run the loop still calls
`interpret_sin` once after the drain phase first leaves zero threads, so
the tick list is non-empty and ends with a sample-less tick; with no
sounding samples the f64 mean is `0.0/0.0 = NaN` and its `as u8` cast is
`0` (`emitByte [] = 0`), so the byte stream of every terminating run ends
with the byte `0`; in particular the empty program (just `Terminate`)
outputs exactly the single byte `0`. -/
theorem final_tick_zero (fuel : ℕ) (instrs : List Instruction) (u : ℕ → ℚ)
    (ticks : List (List (ℚ × ℤ))) (h : interpretTicks fuel instrs u = .ok ticks) :
    ticks ≠ [] ∧ ticks.getLast? = some [] ∧ emitByte [] = 0 ∧
    interpret fuel instrs u = .ok (ticks.map emitByte) ∧
    (ticks.map emitByte).getLast? = some 0 ∧
    ∀ (fuel2 : ℕ) (v : ℕ → ℚ), 2 ≤ fuel2 →
      interpret fuel2 [Instruction.Terminate] v = .ok [0] := by
  obtain ⟨hne, hlast⟩ := interpretLoop_last_nil fuel [⟨0, 0⟩] 0 ticks
    (List.cons_ne_nil _ _) h
  refine ⟨hne, hlast, rfl, ?_, ?_, ?_⟩
  · rw [interpret, h]
    rfl
  · exact getLast?_map emitByte ticks [] hlast
  · intro fuel2 v hf2
    rw [interpret, terminate_run fuel2 v hf2]
    rfl

theorem final_tick_zero_witness :
    ([[]] : List (List (ℚ × ℤ))) ≠ [] ∧
    ([[]] : List (List (ℚ × ℤ))).getLast? = some [] ∧ emitByte [] = 0 ∧
    interpret 3 [Instruction.Terminate] (fun _ => 0) = .ok ([[]].map emitByte) ∧
    (([[]] : List (List (ℚ × ℤ))).map emitByte).getLast? = some 0 ∧
    ∀ (fuel2 : ℕ) (v : ℕ → ℚ), 2 ≤ fuel2 →
      interpret fuel2 [Instruction.Terminate] v = .ok [0] :=
  final_tick_zero 3 [Instruction.Terminate] (fun _ => 0) [[]] rfl

/-! ## Determinism (C2), fork order (C4), branching draws (C7) -/

/-- Claim C2: determinism — the interpreter output is a function of the
compiled instruction sequence and the pseudo-random draw stream alone:
runs on the same instructions whose seeded draw streams agree everywhere
produce identical tick sequences and identical byte streams.  All draws
are read from the single stream through one cursor threaded through the
whole run, seeded once (cursor `0`) at the start of `interpretTicks`. -/
theorem interpret_deterministic (fuel : ℕ) (instrs : List Instruction)
    (u v : ℕ → ℚ) (h : ∀ k, u k = v k) :
    interpretTicks fuel instrs u = interpretTicks fuel instrs v ∧
    interpret fuel instrs u = interpret fuel instrs v := by
  have huv : u = v := funext h
  rw [huv]
  exact ⟨rfl, rfl⟩

theorem interpret_deterministic_witness :
    interpretTicks 10 [Instruction.Sin 440 1, Instruction.Terminate] (fun _ => 0) =
      interpretTicks 10 [Instruction.Sin 440 1, Instruction.Terminate] (fun _ => 0) ∧
    interpret 10 [Instruction.Sin 440 1, Instruction.Terminate] (fun _ => 0) =
      interpret 10 [Instruction.Sin 440 1, Instruction.Terminate] (fun _ => 0) :=
  interpret_deterministic 10 [Instruction.Sin 440 1, Instruction.Terminate]
    (fun _ => 0) (fun _ => 0) (fun _ => rfl)

/-- Claim C4, counterexample: with `pfork` taken (probability 1, draw 0),
the drained population is `[⟨0,2⟩, ⟨0,1⟩]` — the forked thread at the jump
target (pc 2) comes FIRST and the original fall-through thread (pc 1)
second, not the other way round as the claim states. -/
theorem pfork_order_counterexample :
    recurse [Instruction.PFork 1 2, Instruction.Sin 1 1, Instruction.Sin 2 1,
        Instruction.Terminate] (fun _ => 0) 5 ⟨0, 0⟩ 0 =
      .ok ([⟨0, 2⟩, ⟨0, 1⟩], 1) ∧
    ([⟨0, 2⟩, ⟨0, 1⟩] : List ThreadState) ≠ [⟨0, 1⟩, ⟨0, 2⟩] := by
  exact ⟨rfl, by decide⟩

/-- Claim C4 (amended): when a `ProbabilisticFork`'s branch is taken
during the drain, the code recurses into the forked thread at the jump
target FIRST (consuming the subsequent random draws before the original
thread does) and places its surviving threads BEFORE those of the
original thread, which continues at the next instruction; a drained
thread's descendants replace it at its own position while the population
is processed left to right. -/
theorem pfork_target_first (instrs : List Instruction) (u : ℕ → ℚ)
    (fuel n : ℕ) (t : ThreadState) (p : ℚ) (tgt : ℕ)
    (h : instrs[t.pc]? = some (Instruction.PFork p tgt)) (hp : u n < p) :
    (∀ a b, recurse instrs u fuel ⟨0, tgt⟩ (n + 1) = .ok a →
      recurse instrs u fuel ⟨0, t.pc + 1⟩ a.2 = .ok b →
      recurse instrs u (fuel + 1) t n = .ok (a.1 ++ b.1, b.2)) ∧
    (∀ (ts : List ThreadState) (m : ℕ) (a b : List ThreadState × ℕ),
      recurse instrs u fuel t m = .ok a →
      interpret_to_sin instrs u fuel ts a.2 = .ok b →
      interpret_to_sin instrs u fuel (t :: ts) m = .ok (a.1 ++ b.1, b.2)) :=
  ⟨fun _ _ ha hb => recurse_pfork_ok h hp ha hb,
   fun _ _ _ _ ha hb => interpret_to_sin_ok ha hb⟩

theorem pfork_target_first_witness :
    (∀ a b,
      recurse [Instruction.PFork 1 2, Instruction.Sin 1 1, Instruction.Sin 2 1,
        Instruction.Terminate] (fun _ => 0) 4 ⟨0, 2⟩ 1 = .ok a →
      recurse [Instruction.PFork 1 2, Instruction.Sin 1 1, Instruction.Sin 2 1,
        Instruction.Terminate] (fun _ => 0) 4 ⟨0, 1⟩ a.2 = .ok b →
      recurse [Instruction.PFork 1 2, Instruction.Sin 1 1, Instruction.Sin 2 1,
        Instruction.Terminate] (fun _ => 0) 5 ⟨0, 0⟩ 0 = .ok (a.1 ++ b.1, b.2)) ∧
    (∀ (ts : List ThreadState) (m : ℕ) (a b : List ThreadState × ℕ),
      recurse [Instruction.PFork 1 2, Instruction.Sin 1 1, Instruction.Sin 2 1,
        Instruction.Terminate] (fun _ => 0) 4 ⟨0, 0⟩ m = .ok a →
      interpret_to_sin [Instruction.PFork 1 2, Instruction.Sin 1 1, Instruction.Sin 2 1,
        Instruction.Terminate] (fun _ => 0) 4 ts a.2 = .ok b →
      interpret_to_sin [Instruction.PFork 1 2, Instruction.Sin 1 1, Instruction.Sin 2 1,
        Instruction.Terminate] (fun _ => 0) 4 (⟨0, 0⟩ :: ts) m = .ok (a.1 ++ b.1, b.2)) :=
  pfork_target_first [Instruction.PFork 1 2, Instruction.Sin 1 1, Instruction.Sin 2 1,
    Instruction.Terminate] (fun _ => 0) 4 0 ⟨0, 0⟩ 1 2 rfl (by decide)

/-- Claim C7: `bernoulli_trial` consumes exactly one uniform draw (cursor
`n ↦ n+1`) and reports "branch taken" iff the draw is strictly below the
probability; with a draw in `[0,1)`, probability 0 never branches and
probability 1 always branches; `PJump` and `PFork` each consume exactly
one draw per visit, and a `PFork` with probability 0 continues as the
single fall-through thread exactly as if no fork had happened. -/
theorem bernoulli_branching (p : ℚ) (u : ℕ → ℚ) (n : ℕ)
    (instrs : List Instruction) (t : ThreadState) (fuel : ℕ) :
    (bernoulli_trial p u n).2 = n + 1 ∧
    ((bernoulli_trial p u n).1 = true ↔ u n < p) ∧
    (0 ≤ u n → (bernoulli_trial 0 u n).1 = false) ∧
    (u n < 1 → (bernoulli_trial 1 u n).1 = true) ∧
    (∀ tgt, instrs[t.pc]? = some (Instruction.PJump p tgt) →
      recurse instrs u (fuel + 1) t n =
        if u n < p then recurse instrs u fuel ⟨0, tgt⟩ (n + 1)
        else recurse instrs u fuel ⟨0, t.pc + 1⟩ (n + 1)) ∧
    (∀ tgt, instrs[t.pc]? = some (Instruction.PFork 0 tgt) → 0 ≤ u n →
      recurse instrs u (fuel + 1) t n = recurse instrs u fuel ⟨0, t.pc + 1⟩ (n + 1)) := by
  refine ⟨rfl, ?_, ?_, ?_, ?_, ?_⟩
  · simp [bernoulli_trial]
  · intro h0
    simp [bernoulli_trial]
    exact h0
  · intro h1
    simp [bernoulli_trial]
    exact h1
  · intro tgt htgt
    exact recurse_pjump htgt u fuel n
  · intro tgt htgt h0
    exact recurse_pfork_skip htgt u fuel n (not_lt.mpr h0)

theorem bernoulli_branching_witness :
    (bernoulli_trial 1 (fun _ => 0) 5).2 = 6 ∧
    (bernoulli_trial 0 (fun _ => 0) 7).1 = false ∧
    (bernoulli_trial 1 (fun _ => 0) 7).1 = true ∧
    recurse [Instruction.PFork 0 1, Instruction.Sin 1 1, Instruction.Terminate]
      (fun _ => 0) 4 ⟨0, 0⟩ 0 =
      recurse [Instruction.PFork 0 1, Instruction.Sin 1 1, Instruction.Terminate]
        (fun _ => 0) 3 ⟨0, 1⟩ 1 :=
  ⟨(bernoulli_branching 1 (fun _ => 0) 5 [] ⟨0, 0⟩ 0).1,
   (bernoulli_branching 1 (fun _ => 0) 7 [] ⟨0, 0⟩ 0).2.2.1 (le_refl 0),
   (bernoulli_branching 1 (fun _ => 0) 7 [] ⟨0, 0⟩ 0).2.2.2.1 (by decide),
   (bernoulli_branching 0 (fun _ => 0) 0
     [Instruction.PFork 0 1, Instruction.Sin 1 1, Instruction.Terminate]
     ⟨0, 0⟩ 3).2.2.2.2.2 1 rfl (le_refl 0)⟩

/-! ## Sample emission (C5) -/

theorem interpret_sin_samples {instrs : List Instruction} :
    ∀ (ts : List ThreadState) (r : List ThreadState × List (ℚ × ℤ)),
      interpret_sin instrs ts = .ok r → r.2 = ts.filterMap (sounding instrs) := by
  intro ts
  induction ts with
  | nil =>
    intro r h
    rw [interpret_sin] at h
    injection h with h
    rw [← h]
    rfl
  | cons t ts ih =>
    intro r h
    rw [interpret_sin] at h
    iterate 3 (all_goals try split at h)
    all_goals cases h
    · rename_i hins _ _ hrest hlt
      have := ih _ hrest
      simp only [List.filterMap_cons, sounding, hins, if_pos hlt, this]
    · rename_i hins _ _ hrest hge
      have := ih _ hrest
      simp only [List.filterMap_cons, sounding, hins, if_neg hge, this]

theorem sin_tick_example :
    interpret_sin [Instruction.Sin 440 1, Instruction.Terminate] [⟨0, 0⟩] =
      .ok ([⟨1, 0⟩], [(440, 0)]) := by
  simp only [interpret_sin]
  norm_num [SAMPLE_RATE]

/-- Claim C5, counterexample: at the first tick of `sin 440 1` the single
sounding value is `sin 0 = 0`, so the mean is `0`; the code casts
`127.5 × (1 + 0) = 127.5` to `u8` by truncation and emits `127`, while the
claim's `round(127.5 × (1 + mean))` would be `128`. -/
theorem emit_round_counterexample :
    emitByte [((440 : ℚ), (0 : ℤ))] = 127 ∧
    round ((127.5 : ℝ) * (1 + sine_wave 440 0)) = (128 : ℤ) ∧
    (127 : ℕ) ≠ 128 := by
  have hsin : sine_wave 440 0 = 0 := by
    simp [sine_wave]
  refine ⟨?_, ?_, by decide⟩
  · simp only [emitByte, hsin, List.map_cons, List.map_nil, List.sum_cons, List.sum_nil,
      List.length_cons, List.length_nil]
    rw [castU8]
    norm_num
    decide
  · rw [hsin]
    norm_num [round_eq]

/-- Claim C5 (amended): on every tick, the recorded samples are exactly the
sounding threads of the tick in population order (a thread parked at a
`Sin` whose duration is not yet exhausted; just-rolled-over threads
contribute nothing), and when at least one thread sounds, the emitted byte
is the saturating TRUNCATION toward zero (`as u8`, not rounding) of
`127.5 × (1 + mean)` where mean is the arithmetic mean of the values
`sin(2π · step · freq / 8000)` of the sounding threads. -/
theorem emit_byte_mean (instrs : List Instruction) (ts : List ThreadState)
    (r : List ThreadState × List (ℚ × ℤ)) (h : interpret_sin instrs ts = .ok r) :
    r.2 = ts.filterMap (sounding instrs) ∧
    (r.2 ≠ [] → emitByte r.2 =
      castU8 ((127.5 : ℝ) *
        (1 + (r.2.map (fun s => Real.sin (2 * Real.pi * (s.2 : ℝ) * (s.1 : ℝ) / 8000))).sum /
          (r.2.length : ℝ)))) := by
  refine ⟨interpret_sin_samples ts r h, ?_⟩
  intro hne
  cases hr : r.2 with
  | nil => exact absurd hr hne
  | cons s rest =>
    simp only [emitByte, sine_wave]
    norm_num [SAMPLE_RATE]

theorem emit_byte_mean_witness :
    ([(440, 0)] : List (ℚ × ℤ)) =
      [(⟨0, 0⟩ : ThreadState)].filterMap
        (sounding [Instruction.Sin 440 1, Instruction.Terminate]) ∧
    (([(440, 0)] : List (ℚ × ℤ)) ≠ [] → emitByte [(440, 0)] =
      castU8 ((127.5 : ℝ) *
        (1 + (([(440, 0)] : List (ℚ × ℤ)).map
            (fun s => Real.sin (2 * Real.pi * (s.2 : ℝ) * (s.1 : ℝ) / 8000))).sum /
          (([(440, 0)] : List (ℚ × ℤ)).length : ℝ)))) :=
  emit_byte_mean [Instruction.Sin 440 1, Instruction.Terminate] [⟨0, 0⟩]
    ([⟨1, 0⟩], [(440, 0)]) sin_tick_example

/-! ## Blank lines and tokenization (C6) -/

theorem splitAux_ne_nil : ∀ (cs acc : List Char), splitAux cs acc ≠ [] := by
  intro cs
  induction cs with
  | nil => intro acc h; cases h
  | cons c cs ih =>
    intro acc
    rw [splitAux]
    by_cases hc : c = ' '
    · rw [if_pos hc]
      exact List.cons_ne_nil _ _
    · rw [if_neg hc]
      exact ih (c :: acc)

theorem splitAux_head : ∀ (cs acc : List Char),
    ∃ pre rest, splitAux cs acc = (acc.reverse ++ pre) :: rest := by
  intro cs
  induction cs with
  | nil => intro acc; exact ⟨[], [], by simp [splitAux]⟩
  | cons c cs ih =>
    intro acc
    rw [splitAux]
    by_cases hc : c = ' '
    · rw [if_pos hc]
      exact ⟨[], splitAux cs [], by simp⟩
    · rw [if_neg hc]
      obtain ⟨pre, rest, hp⟩ := ih (c :: acc)
      refine ⟨c :: pre, rest, ?_⟩
      rw [hp]
      simp

theorem tokenize_eq_single_empty : ∀ (line : String), tokenize line = [""] → line = "" := by
  intro line h
  cases line with
  | mk data =>
    cases hl : data with
    | nil =>
      subst hl
      rfl
    | cons c cs =>
      exfalso
      rw [tokenize] at h
      have htl : (String.mk data).toList = c :: cs := by
        rw [hl]
        rfl
      rw [htl] at h
      by_cases hc : c = ' '
      · rw [splitAux, if_pos hc] at h
        have hlen := congrArg List.length h
        simp at hlen
        exact splitAux_ne_nil cs [] hlen
      · rw [splitAux, if_neg hc] at h
        obtain ⟨pre, rest, hp⟩ := splitAux_head cs [c]
        rw [hp] at h
        simp at h
        obtain ⟨h1, -⟩ := h
        have : (c :: pre) = ([] : List Char) := congrArg String.data h1
        cases this

/-- Claim C6, counterexample: tokenization splits at single spaces only.
The whitespace-only line `" "` tokenizes to `["", ""]`: far from being
skipped silently, it makes `compile` record a `SyntaxError` and it
advances the pass-1 label-index counter; likewise `"sin  440 1"` (two
spaces) is rejected instead of being accepted, so the claimed
whitespace-insensitivity fails. -/
theorem blank_line_counterexample :
    compile pfTest [" "] = .error [CompileError.SyntaxError 0] ∧
    isSlot " " = true ∧
    compile pfTest ["sin  440 1"] = .error [CompileError.SyntaxError 0] :=
  ⟨rfl, by decide, rfl⟩

/-- Claim C6 (amended): only the exactly-empty source line is blank: a
line tokenizes to `[""]` iff it is the empty string, and the empty line
is skipped silently — no error, no instruction, and no advance of the
pass-1 label-index counter.  A whitespace-only but non-empty line such as
`" "` instead records `SyntaxError` for the line and does advance the
counter, because tokens are separated by exactly one space character. -/
theorem blank_line_skipped (pf : String → Option ℚ) (lbls : List (String × ℕ))
    (i : ℕ) (line : String) :
    (tokenize line = [""] ↔ line = "") ∧
    (line = "" → processLine pf lbls i line = .skip ∧ isSlot line = false) ∧
    processLine pf lbls i " " = .err (.SyntaxError i) ∧ isSlot " " = true := by
  refine ⟨⟨tokenize_eq_single_empty line, ?_⟩, ?_, ?_, by decide⟩
  · intro h
    rw [h]
    rfl
  · intro h
    rw [h]
    exact ⟨rfl, rfl⟩
  · rfl

theorem blank_line_skipped_witness :
    (tokenize "" = [""] ↔ ("" : String) = "") ∧
    (("" : String) = "" → processLine pfTest [] 0 "" = .skip ∧ isSlot "" = false) ∧
    processLine pfTest [] 0 " " = .err (.SyntaxError 0) ∧ isSlot " " = true :=
  blank_line_skipped pfTest [] 0 ""

/-! ## Error reporting (C8) and probability validation (C9) -/

/-- Claim C8: `compile` fails exactly when at least one line produces an
error; the error list is exactly the per-line errors of the whole input
in source order (never stopping at the first), each error carries the
0-based number of the line that produced it, the line numbers are
strictly increasing, and a successful compile is exactly the emitted
instructions plus the trailing `Terminate` — never a partial program
alongside errors. -/
theorem compile_error_reporting (pf : String → Option ℚ) (lines : List String) :
    ((pass2 pf (pass1 lines) 0 lines).2 = [] →
      compile pf lines = .ok ((pass2 pf (pass1 lines) 0 lines).1 ++ [.Terminate])) ∧
    ((pass2 pf (pass1 lines) 0 lines).2 ≠ [] →
      compile pf lines = .error (pass2 pf (pass1 lines) 0 lines).2) ∧
    (pass2 pf (pass1 lines) 0 lines).2 =
      ((lines.enum).map (fun q => processLine pf (pass1 lines) q.1 q.2)).filterMap errOf ∧
    (∀ (i : ℕ) (line : String) (e : CompileError),
      processLine pf (pass1 lines) i line = .err e → errLine e = i) ∧
    List.Sorted (· < ·) (((pass2 pf (pass1 lines) 0 lines).2).map errLine) ∧
    (∀ instrs, compile pf lines = .ok instrs → (pass2 pf (pass1 lines) 0 lines).2 = []) := by
  refine ⟨?_, ?_, ?_, ?_, ?_, ?_⟩
  · intro h
    rw [compile]
    simp [h]
  · intro h
    rw [compile]
    simp [h]
  · exact pass2_errs_eq pf (pass1 lines) lines 0
  · intro i line e he
    exact processLine_err_line pf (pass1 lines) i line e he
  · exact pass2_errs_sorted pf (pass1 lines) lines 0
  · intro instrs h
    exact (compile_ok_parts h).1

theorem compile_error_reporting_witness :
    ((pass2 pfTest (pass1 ["sin 440 1", "sin x 1", "", "bad"]) 0
        ["sin 440 1", "sin x 1", "", "bad"]).2 = [] →
      compile pfTest ["sin 440 1", "sin x 1", "", "bad"] =
        .ok ((pass2 pfTest (pass1 ["sin 440 1", "sin x 1", "", "bad"]) 0
          ["sin 440 1", "sin x 1", "", "bad"]).1 ++ [.Terminate])) ∧
    ((pass2 pfTest (pass1 ["sin 440 1", "sin x 1", "", "bad"]) 0
        ["sin 440 1", "sin x 1", "", "bad"]).2 ≠ [] →
      compile pfTest ["sin 440 1", "sin x 1", "", "bad"] =
        .error (pass2 pfTest (pass1 ["sin 440 1", "sin x 1", "", "bad"]) 0
          ["sin 440 1", "sin x 1", "", "bad"]).2) ∧
    (pass2 pfTest (pass1 ["sin 440 1", "sin x 1", "", "bad"]) 0
        ["sin 440 1", "sin x 1", "", "bad"]).2 =
      ((["sin 440 1", "sin x 1", "", "bad"].enum).map
        (fun q => processLine pfTest (pass1 ["sin 440 1", "sin x 1", "", "bad"]) q.1 q.2)).filterMap
        errOf ∧
    (∀ (i : ℕ) (line : String) (e : CompileError),
      processLine pfTest (pass1 ["sin 440 1", "sin x 1", "", "bad"]) i line = .err e →
        errLine e = i) ∧
    List.Sorted (· < ·)
      (((pass2 pfTest (pass1 ["sin 440 1", "sin x 1", "", "bad"]) 0
        ["sin 440 1", "sin x 1", "", "bad"]).2).map errLine) ∧
    (∀ instrs, compile pfTest ["sin 440 1", "sin x 1", "", "bad"] = .ok instrs →
      (pass2 pfTest (pass1 ["sin 440 1", "sin x 1", "", "bad"]) 0
        ["sin 440 1", "sin x 1", "", "bad"]).2 = []) :=
  compile_error_reporting pfTest ["sin 440 1", "sin x 1", "", "bad"]

/-- Claim C9: for a `pjump` or `pfork` line, the label is validated first
(an unknown label wins over any probability problem, yielding the
`UnknownLabel` error), then the probability token: an unparseable token
yields `NotANumber`, a parsed value is accepted iff `0 ≤ q ≤ 1` (so
exactly 0 and exactly 1 are accepted), and a parsed value outside the
inclusive range yields `InvalidProbability`; a failing line contributes
exactly its single error and no instruction to the compile output. -/
theorem pjump_pfork_validation (pf : String → Option ℚ) (lbls : List (String × ℕ))
    (i : ℕ) (line : String) (fork : Bool) (l prob : String)
    (htk : tokenize line = [if fork then "pfork" else "pjump", l, prob]) :
    (List.lookup l lbls = none → processLine pf lbls i line = .err (.Lbl i)) ∧
    (∀ tgt, List.lookup l lbls = some tgt →
      (pf prob = none → processLine pf lbls i line = .err (.Num i)) ∧
      (∀ q, pf prob = some q →
        (0 ≤ q ∧ q ≤ 1 → processLine pf lbls i line =
          .emit (if fork then .PFork q tgt else .PJump q tgt)) ∧
        (¬ (0 ≤ q ∧ q ≤ 1) → processLine pf lbls i line = .err (.Prob i)))) ∧
    (∀ (e : CompileError) (rest : List String), processLine pf lbls i line = .err e →
      pass2 pf lbls i (line :: rest) =
        ((pass2 pf lbls (i + 1) rest).1, e :: (pass2 pf lbls (i + 1) rest).2)) := by
  refine ⟨?_, ?_, ?_⟩
  · intro hl
    cases fork <;> simp only [if_pos, if_neg, Bool.false_eq_true] at htk <;>
      simp [processLine, htk, hl]
  · intro tgt hl
    refine ⟨?_, ?_⟩
    · intro hq
      cases fork <;> simp only [if_pos, if_neg, Bool.false_eq_true] at htk <;>
        simp [processLine, htk, hl, hq]
    · intro q hq
      refine ⟨?_, ?_⟩
      · intro hr
        cases fork <;> simp only [if_pos, if_neg, Bool.false_eq_true] at htk <;>
          simp [processLine, htk, hl, hq, hr]
      · intro hr
        cases fork <;> simp only [if_pos, if_neg, Bool.false_eq_true] at htk <;>
          simp [processLine, htk, hl, hq, hr]
  · intro e rest he
    rw [pass2]
    simp [he]

theorem pjump_pfork_validation_witness :
    (List.lookup "a" [("a", (0 : ℕ))] = none →
      processLine pfTest [("a", 0)] 0 "pjump a 1" = .err (.Lbl 0)) ∧
    (∀ tgt, List.lookup "a" [("a", (0 : ℕ))] = some tgt →
      (pfTest "1" = none → processLine pfTest [("a", 0)] 0 "pjump a 1" = .err (.Num 0)) ∧
      (∀ q, pfTest "1" = some q →
        (0 ≤ q ∧ q ≤ 1 → processLine pfTest [("a", 0)] 0 "pjump a 1" =
          .emit (if false then .PFork q tgt else .PJump q tgt)) ∧
        (¬ (0 ≤ q ∧ q ≤ 1) →
          processLine pfTest [("a", 0)] 0 "pjump a 1" = .err (.Prob 0)))) ∧
    (∀ (e : CompileError) (rest : List String),
      processLine pfTest [("a", 0)] 0 "pjump a 1" = .err e →
      pass2 pfTest [("a", 0)] 0 ("pjump a 1" :: rest) =
        ((pass2 pfTest [("a", 0)] 1 rest).1, e :: (pass2 pfTest [("a", 0)] 1 rest).2)) :=
  pjump_pfork_validation pfTest [("a", 0)] 0 "pjump a 1" false "a" "1" rfl
